import Mathlib

/-!
Verification of the binaural-beats signal engine.

The definitions below are a shallow embedding of `cmd/binaural-beats/main.go`
(the schedule interpolation functions, the variable-frequency oscillator, the
Voss-McCartney pink-noise generator and the noise gate) and of the Sbagen
batch converter's record type.  Machine floating point (`float64`) is embedded
as an arbitrary linear ordered field, instantiated at `ℚ` for executable
witnesses and at `ℝ` for the trigonometric oscillator facts.
-/

set_option maxHeartbeats 1000000

/-- Embeds `ConfigFrequencyChange` (main.go lines 25-32): one breakpoint of the
parameter schedule. -/
structure ConfigFrequencyChange (α : Type) where
  time : α
  frequency : α
  beatFrequency : α
  pinkNoiseOn : Bool
  pinkNoiseVolume : α
  toneVolume : α
deriving DecidableEq

section Schedule

variable {α : Type} [LinearOrderedField α] {β : Type}

/-- The linear interpolation expression shared by the bodies of
`createFreqFunc`, `createBeatFreqFunc` and `createVolumeFunc`
(main.go lines 189-194, 222-227, 255-260), abstracted over the
interpolated field `v`. -/
def linearInterp (v : ConfigFrequencyChange α → α)
    (c1 c2 : ConfigFrequencyChange α) (t : α) : α :=
  v c1 + (v c2 - v c1) * (t - c1.time) / (c2.time - c1.time)

/-- Embeds the interval-search loop `for i := 0; i < len(changes)-1; i++`
shared by the four query functions (main.go lines 187-196, 220-228, 253-261,
286-291): scan adjacent pairs, and on the first pair with
`changes[i].Time <= t && t < changes[i+1].Time` return the branch value
`f changes[i] changes[i+1] t`; if no pair matches, fall through to the
default (the last breakpoint's value in the source). -/
def loopQuery (f : ConfigFrequencyChange α → ConfigFrequencyChange α → α → β)
    (d : β) : List (ConfigFrequencyChange α) → α → β
  | c1 :: c2 :: rest, t =>
    if c1.time ≤ t ∧ t < c2.time then f c1 c2 t
    else loopQuery f d (c2 :: rest) t
  | _, _ => d

/-- The shared shape of the four `create*Func` closures (main.go lines
170-295): empty-list default `d`, clamp to the first breakpoint for
`t <= changes[0].Time`, clamp to the last breakpoint for
`t >= changes[len-1].Time`, otherwise the interval-search loop. -/
def scheduleQuery (g : ConfigFrequencyChange α → β)
    (f : ConfigFrequencyChange α → ConfigFrequencyChange α → α → β)
    (d : β) (changes : List (ConfigFrequencyChange α)) (t : α) : β :=
  if h : changes = [] then d
  else if t ≤ (changes.head h).time then g (changes.head h)
  else if (changes.getLast h).time ≤ t then g (changes.getLast h)
  else loopQuery f (g (changes.getLast h)) changes t

/-- Embeds `createFreqFunc` (main.go lines 170-200). -/
def createFreqFunc (changes : List (ConfigFrequencyChange α)) : α → α :=
  scheduleQuery (fun c => c.frequency) (linearInterp (fun c => c.frequency)) 0 changes

/-- Embeds `createBeatFreqFunc` (main.go lines 203-233). -/
def createBeatFreqFunc (changes : List (ConfigFrequencyChange α)) : α → α :=
  scheduleQuery (fun c => c.beatFrequency) (linearInterp (fun c => c.beatFrequency)) 0 changes

/-- Embeds `createVolumeFunc` (main.go lines 236-266); empty default `1.0`. -/
def createVolumeFunc (changes : List (ConfigFrequencyChange α)) : α → α :=
  scheduleQuery (fun c => c.toneVolume) (linearInterp (fun c => c.toneVolume)) 1 changes

/-- The `(PinkNoiseOn, PinkNoiseVolume)` pair returned by `createPinkNoiseFunc`. -/
def noisePair (c : ConfigFrequencyChange α) : Bool × α :=
  (c.pinkNoiseOn, c.pinkNoiseVolume)

/-- Embeds `createPinkNoiseFunc` (main.go lines 269-295): same structure as the
linear queries but the loop branch steps to breakpoint `i`'s pair with no
interpolation. -/
def createPinkNoiseFunc (changes : List (ConfigFrequencyChange α)) : α → Bool × α :=
  scheduleQuery noisePair (fun c1 _ _ => noisePair c1) (false, 0) changes

/-- Division-checked variant of `loopQuery` for the linear branches: the loop
branch reports `none` if its divisor `changes[i+1].Time - changes[i].Time` is
not strictly positive. -/
def loopQueryChecked (f : ConfigFrequencyChange α → ConfigFrequencyChange α → α → β)
    (d : β) : List (ConfigFrequencyChange α) → α → Option β
  | c1 :: c2 :: rest, t =>
    if c1.time ≤ t ∧ t < c2.time then
      if 0 < c2.time - c1.time then some (f c1 c2 t) else none
    else loopQueryChecked f d (c2 :: rest) t
  | _, _ => some d

/-- Division-checked variant of `scheduleQuery`. -/
def scheduleQueryChecked (g : ConfigFrequencyChange α → β)
    (f : ConfigFrequencyChange α → ConfigFrequencyChange α → α → β)
    (d : β) (changes : List (ConfigFrequencyChange α)) (t : α) : Option β :=
  if h : changes = [] then some d
  else if t ≤ (changes.head h).time then some (g (changes.head h))
  else if (changes.getLast h).time ≤ t then some (g (changes.getLast h))
  else loopQueryChecked f (g (changes.getLast h)) changes t

/-- Division-checked `createFreqFunc`. -/
def createFreqFuncChecked (changes : List (ConfigFrequencyChange α)) : α → Option α :=
  scheduleQueryChecked (fun c => c.frequency) (linearInterp (fun c => c.frequency)) 0 changes

/-- Division-checked `createBeatFreqFunc`. -/
def createBeatFreqFuncChecked (changes : List (ConfigFrequencyChange α)) : α → Option α :=
  scheduleQueryChecked (fun c => c.beatFrequency) (linearInterp (fun c => c.beatFrequency)) 0 changes

/-- Division-checked `createVolumeFunc`. -/
def createVolumeFuncChecked (changes : List (ConfigFrequencyChange α)) : α → Option α :=
  scheduleQueryChecked (fun c => c.toneVolume) (linearInterp (fun c => c.toneVolume)) 1 changes

/-- Embeds `getTotalPlaybackTime` (main.go lines 298-309): running maximum of
the breakpoint times, `0` for an empty list. -/
def getTotalPlaybackTime (changes : List (ConfigFrequencyChange α)) : α :=
  match changes with
  | [] => 0
  | c :: cs =>
    (c :: cs).foldl (fun maxTime change =>
      if maxTime < change.time then change.time else maxTime) c.time

/-- Embeds the stretch loop in `main` (main.go lines 324-326):
`cfg.FrequencyChanges[i].Time *= *stretchFactor`. -/
def applyStretch (k : α) (changes : List (ConfigFrequencyChange α)) :
    List (ConfigFrequencyChange α) :=
  changes.map (fun c =>
    ⟨c.time * k, c.frequency, c.beatFrequency, c.pinkNoiseOn, c.pinkNoiseVolume, c.toneVolume⟩)

/-- Embeds the fatal-configuration check in `main` (main.go lines 329-332):
after stretching, `log.Fatalf` fires exactly when the total playback time is
zero. -/
def playbackFatal (k : α) (changes : List (ConfigFrequencyChange α)) : Bool :=
  decide (getTotalPlaybackTime (applyStretch k changes) = 0)

/-- Embeds the closure `freqFuncLeft` (main.go lines 344-346): the left
channel uses the schedule's base frequency directly. -/
def freqFuncLeft (changes : List (ConfigFrequencyChange α)) : α → α :=
  fun t => createFreqFunc changes t

/-- Embeds the closure `freqFuncRight` (main.go lines 348-350): the right
channel uses base frequency plus beat frequency. -/
def freqFuncRight (changes : List (ConfigFrequencyChange α)) : α → α :=
  fun t => createFreqFunc changes t + createBeatFreqFunc changes t

end Schedule

section PinkNoiseGenerator

variable {α : Type} [LinearOrderedField α]

/-- Embeds the mutable state of `PinkNoise` (main.go lines 34-40).  The Go
`*rand.Rand` source is embedded as a pure stream `ℕ → α` of `Float64()`
outputs together with the index `ridx` of the next value to consume. -/
structure PinkNoise (α : Type) where
  maxKey : ℕ
  key : ℕ
  white : Fin 5 → α
  ridx : ℕ

/-- Embeds `NewPinkNoise` (main.go lines 43-48): `maxKey = 0x1F`, and Go
zero-initializes `key` and the five stored white values. -/
def newPinkNoise : PinkNoise α :=
  ⟨31, 0, fun _ => 0, 0⟩

/-- Embeds `PinkNoise.nextSample` (main.go lines 66-80): increment the 5-bit
key (wrapping past `maxKey` to 0), redraw the stored white value of every bit
position that flipped — consuming `rand.Float64()*2 - 1` values in bit order —
and return the sum of the five stored values scaled by `0.1`. -/
def nextSample (rnd : ℕ → α) (pn : PinkNoise α) : PinkNoise α × α :=
  let lastKey := pn.key
  let keyInc := pn.key + 1
  let key := if pn.maxKey < keyInc then 0 else keyInc
  let diff := Nat.xor lastKey key
  let s0 : (Fin 5 → α) × ℕ := (pn.white, pn.ridx)
  let s1 := if Nat.testBit diff 0 then (Function.update s0.1 0 (rnd s0.2 * 2 - 1), s0.2 + 1) else s0
  let s2 := if Nat.testBit diff 1 then (Function.update s1.1 1 (rnd s1.2 * 2 - 1), s1.2 + 1) else s1
  let s3 := if Nat.testBit diff 2 then (Function.update s2.1 2 (rnd s2.2 * 2 - 1), s2.2 + 1) else s2
  let s4 := if Nat.testBit diff 3 then (Function.update s3.1 3 (rnd s3.2 * 2 - 1), s3.2 + 1) else s3
  let s5 := if Nat.testBit diff 4 then (Function.update s4.1 4 (rnd s4.2 * 2 - 1), s4.2 + 1) else s4
  let w := s5.1
  let sum := w 0 + w 1 + w 2 + w 3 + w 4
  (⟨pn.maxKey, key, w, s5.2⟩, sum * 0.1)

/-- The generator state after `n` samples have been drawn. -/
def pinkStateAt (rnd : ℕ → α) (pn : PinkNoise α) : ℕ → PinkNoise α
  | 0 => pn
  | n + 1 => (nextSample rnd (pinkStateAt rnd pn n)).1

/-- The `n`-th sample emitted by the generator (counting from 0). -/
def pinkSampleAt (rnd : ℕ → α) (pn : PinkNoise α) (n : ℕ) : α :=
  (nextSample rnd (pinkStateAt rnd pn n)).2

/-- Embeds `PinkNoise.Stream` (main.go lines 51-58): for each frame of the
buffer draw one sample and add it to both channels. -/
def pinkNoiseStreamRun (rnd : ℕ → α) :
    PinkNoise α → List (α × α) → PinkNoise α × List (α × α)
  | pn, [] => (pn, [])
  | pn, frame :: rest =>
    let drawn := nextSample rnd pn
    let tail := pinkNoiseStreamRun rnd drawn.1 rest
    (tail.1, (frame.1 + drawn.2, frame.2 + drawn.2) :: tail.2)

end PinkNoiseGenerator

section NoiseGate

variable {α : Type} [LinearOrderedField α]

/-- Embeds the gating loop of `PinkNoiseControl.Stream` (main.go lines
127-139): per frame, `t = pos/sr`, query the noise function; if off zero both
channels, else write `samples[i][0] * vol * 0.5` identically to both. -/
def gateRun (volumeFunc : α → Bool × α) (sr : α) :
    ℕ → List (α × α) → ℕ × List (α × α)
  | pos, [] => (pos, [])
  | pos, frame :: rest =>
    let t := (pos : α) / sr
    let p := volumeFunc t
    let outFrame :=
      if p.1 = false then ((0 : α), (0 : α))
      else (frame.1 * p.2 * 0.5, frame.1 * p.2 * 0.5)
    let tail := gateRun volumeFunc sr (pos + 1) rest
    (tail.1, outFrame :: tail.2)

/-- Embeds `PinkNoiseControl.Stream` (main.go lines 125-141): first the inner
`PinkNoise` stream fills the buffer, then the gating loop rewrites it. -/
def pinkNoiseControlRun (rnd : ℕ → α) (volumeFunc : α → Bool × α) (sr : α)
    (pn : PinkNoise α) (pos : ℕ) (buf : List (α × α)) :
    (PinkNoise α × ℕ) × List (α × α) :=
  let noised := pinkNoiseStreamRun rnd pn buf
  let gated := gateRun volumeFunc sr pos noised.2
  ((noised.1, gated.1), gated.2)

end NoiseGate

section Oscillator

variable {α : Type} [LinearOrderedField α]

/-- Embeds the mutable per-channel state of `VariableTone` (main.go lines
83-90): sample position and accumulated phase. -/
structure ToneState (α : Type) where
  pos : ℕ
  phase : α

/-- Embeds one iteration of `VariableTone.Stream` (main.go lines 94-107):
`t = pos/sr`, `deltaPhase = 2π·freqFunc(t)/sr`, `phase += deltaPhase`, sample
`sin(phase) * volumeFunc(t) * 0.5`, `pos++`.  The transcendental pieces are
passed in as `sinF` and `piV`; the oscillator theorems instantiate them with
`Real.sin` and `Real.pi`. -/
def toneStep (sinF : α → α) (piV : α) (freqFn volFn : α → α) (sr : α)
    (st : ToneState α) : ToneState α × α :=
  let t := (st.pos : α) / sr
  let f := freqFn t
  let vol := volFn t
  let deltaPhase := 2 * piV * f / sr
  let phase := st.phase + deltaPhase
  (⟨st.pos + 1, phase⟩, sinF phase * vol * 0.5)

/-- The oscillator state after emitting `n` samples, starting from the
`pos = 0`, `phase = 0` state `main` constructs (main.go lines 353-369). -/
def toneStateAt (sinF : α → α) (piV : α) (freqFn volFn : α → α) (sr : α) :
    ℕ → ToneState α
  | 0 => ⟨0, 0⟩
  | n + 1 => (toneStep sinF piV freqFn volFn sr (toneStateAt sinF piV freqFn volFn sr n)).1

/-- The `n`-th sample emitted by the oscillator (counting from 0). -/
def toneSample (sinF : α → α) (piV : α) (freqFn volFn : α → α) (sr : α)
    (n : ℕ) : α :=
  (toneStep sinF piV freqFn volFn sr (toneStateAt sinF piV freqFn volFn sr n)).2

end Oscillator

section Converter

variable {α : Type} [LinearOrderedField α]

/-- Embeds the Sbagen converter's `FrequencyChange` record
(src/unnamed/part_000 lines 28-34).  It has no pink-noise on/off field. -/
structure FrequencyChange (α : Type) where
  time : α
  frequency : α
  beatFrequency : α
  pinkNoiseVolume : α
  toneVolume : α
deriving DecidableEq

/-- Modelled from the spec: the configuration loader (out of scope of the
source core; YAML unmarshalling in `parseConfig`, main.go lines 149-167) fills
a player breakpoint from a converter record field by field; since the
converter record carries no `pink_noise_on` key, the player's `PinkNoiseOn`
keeps Go's zero value `false`. -/
def loadConverted (fc : FrequencyChange α) : ConfigFrequencyChange α :=
  ⟨fc.time, fc.frequency, fc.beatFrequency, false, fc.pinkNoiseVolume, fc.toneVolume⟩

end Converter

/-! ### Auxiliary list helpers and lemmas -/

/-- The first element of a list, or `d` when the list is empty. -/
def headOr {X : Type} (d : X) : List X → X
  | [] => d
  | x :: _ => x

/-- The final element of a list, or `d` when the list is empty. -/
def lastOr {X : Type} (d : X) : List X → X
  | [] => d
  | x :: xs => lastOr x xs

theorem head_append_cons {X : Type} (pre : List X) (c : X) (rest : List X)
    (h : pre ++ c :: rest ≠ []) :
    (pre ++ c :: rest).head h = headOr c pre := by
  cases pre with
  | nil => simp [headOr]
  | cons p ps => simp [headOr]

theorem getLast_cons_lastOr {X : Type} (c : X) (rest : List X)
    (h : c :: rest ≠ []) :
    (c :: rest).getLast h = lastOr c rest := by
  induction rest generalizing c with
  | nil => simp [lastOr]
  | cons r rs ih =>
    rw [List.getLast_cons (List.cons_ne_nil r rs)]
    rw [show lastOr c (r :: rs) = lastOr r rs from rfl]
    exact ih r (List.cons_ne_nil r rs)

theorem getLast_append_cons {X : Type} (pre : List X) (c : X) (rest : List X)
    (h : pre ++ c :: rest ≠ []) :
    (pre ++ c :: rest).getLast h = lastOr c rest := by
  have h2 : (c :: rest : List X) ≠ [] := List.cons_ne_nil c rest
  have e := List.getLast_append' pre (c :: rest) h2
  rw [show (pre ++ c :: rest).getLast h
        = (pre ++ c :: rest).getLast (List.append_ne_nil_of_right_ne_nil pre h2) from rfl]
  rw [e, getLast_cons_lastOr]

theorem lastOr_mem_cons {X : Type} (rest : List X) (c : X) :
    lastOr c rest ∈ c :: rest := by
  have h : (c :: rest : List X) ≠ [] := List.cons_ne_nil c rest
  rw [← getLast_cons_lastOr c rest h]
  exact List.getLast_mem h

/-! ### Generic schedule-query lemmas -/

section ScheduleLemmas

variable {α : Type} [LinearOrderedField α] {β : Type}
variable (g : ConfigFrequencyChange α → β)
variable (f : ConfigFrequencyChange α → ConfigFrequencyChange α → α → β)
variable (d : β)

/-- Unfolding equation for the interval-search loop on a list with at least
two elements. -/
theorem loopQuery_cons_cons (c1 c2 : ConfigFrequencyChange α)
    (rest : List (ConfigFrequencyChange α)) (t : α) :
    loopQuery f d (c1 :: c2 :: rest) t =
      if c1.time ≤ t ∧ t < c2.time then f c1 c2 t
      else loopQuery f d (c2 :: rest) t := by
  rw [loopQuery]

/-- If every breakpoint in `pre` lies at or before `t`, and `t` falls in the
half-open interval `[c1.time, c2.time)`, the interval-search loop lands on the
pair `(c1, c2)`. -/
theorem loopQuery_hit (pre post : List (ConfigFrequencyChange α))
    (c1 c2 : ConfigFrequencyChange α) (t : α)
    (hpre : ∀ x ∈ pre, x.time ≤ t) (h1 : c1.time ≤ t) (h2 : t < c2.time) :
    loopQuery f d (pre ++ c1 :: c2 :: post) t = f c1 c2 t := by
  induction pre with
  | nil =>
    rw [List.nil_append, loopQuery_cons_cons, if_pos ⟨h1, h2⟩]
  | cons p ps ih =>
    have hps : ∀ x ∈ ps, x.time ≤ t := fun x hx => hpre x (List.mem_cons_of_mem p hx)
    cases ps with
    | nil =>
      rw [show (p :: ([] : List (ConfigFrequencyChange α))) ++ c1 :: c2 :: post
            = p :: c1 :: c2 :: post by simp]
      rw [loopQuery_cons_cons, if_neg (fun hc => absurd hc.2 (not_lt.mpr h1))]
      have e := ih hps
      rw [List.nil_append] at e
      exact e
    | cons q qs =>
      have hq : q.time ≤ t := hps q (List.mem_cons_self q qs)
      rw [show ((p :: q :: qs) ++ c1 :: c2 :: post) = p :: ((q :: qs) ++ c1 :: c2 :: post)
            by simp]
      rw [show ((q :: qs) ++ c1 :: c2 :: post) = q :: (qs ++ c1 :: c2 :: post) by simp]
      rw [loopQuery_cons_cons, if_neg (fun hc => absurd hc.2 (not_lt.mpr hq))]
      have e := ih hps
      rw [show ((q :: qs) ++ c1 :: c2 :: post) = q :: (qs ++ c1 :: c2 :: post) by simp] at e
      exact e

/-- First-breakpoint clamp branch of `scheduleQuery`. -/
theorem scheduleQuery_first (changes : List (ConfigFrequencyChange α)) (t : α)
    (h : changes ≠ []) (ht : t ≤ (changes.head h).time) :
    scheduleQuery g f d changes t = g (changes.head h) := by
  unfold scheduleQuery
  rw [dif_neg h, if_pos ht]

/-- Last-breakpoint clamp branch of `scheduleQuery`. -/
theorem scheduleQuery_last (changes : List (ConfigFrequencyChange α)) (t : α)
    (h : changes ≠ []) (ht1 : ¬ t ≤ (changes.head h).time)
    (ht2 : (changes.getLast h).time ≤ t) :
    scheduleQuery g f d changes t = g (changes.getLast h) := by
  unfold scheduleQuery
  rw [dif_neg h, if_neg ht1, if_pos ht2]

/-- Loop branch of `scheduleQuery`. -/
theorem scheduleQuery_loop (changes : List (ConfigFrequencyChange α)) (t : α)
    (h : changes ≠ []) (ht1 : ¬ t ≤ (changes.head h).time)
    (ht2 : ¬ (changes.getLast h).time ≤ t) :
    scheduleQuery g f d changes t = loopQuery f (g (changes.getLast h)) changes t := by
  unfold scheduleQuery
  rw [dif_neg h, if_neg ht1, if_neg ht2]

/-- Interior evaluation of `scheduleQuery`: if the schedule decomposes as
`pre ++ c1 :: c2 :: post` with everything in `pre` at or before `t`, the head
strictly before `t`, `t` in `[c1.time, c2.time)` and strictly before the last
breakpoint, the query returns the loop branch value on `(c1, c2)`. -/
theorem scheduleQuery_interior (pre post : List (ConfigFrequencyChange α))
    (c1 c2 : ConfigFrequencyChange α) (t : α)
    (hpre : ∀ x ∈ pre, x.time ≤ t) (h1 : c1.time ≤ t) (h2 : t < c2.time)
    (hh : (headOr c1 pre).time < t) (hl : t < (lastOr c2 post).time) :
    scheduleQuery g f d (pre ++ c1 :: c2 :: post) t = f c1 c2 t := by
  have hne : pre ++ c1 :: c2 :: post ≠ [] := by
    intro hcontra
    exact absurd (List.append_eq_nil.mp hcontra).2 (List.cons_ne_nil c1 (c2 :: post))
  have hhead : ((pre ++ c1 :: c2 :: post).head hne) = headOr c1 pre :=
    head_append_cons pre c1 (c2 :: post) hne
  have hlast : ((pre ++ c1 :: c2 :: post).getLast hne) = lastOr c1 (c2 :: post) :=
    getLast_append_cons pre c1 (c2 :: post) hne
  have hlast2 : lastOr c1 (c2 :: post) = lastOr c2 post := rfl
  rw [scheduleQuery_loop g f d _ t hne
    (by rw [hhead]; exact fun hc => absurd (lt_of_le_of_lt hc hh) (lt_irrefl t))
    (by rw [hlast, hlast2]; exact fun hc => absurd (lt_of_lt_of_le hl hc) (lt_irrefl t))]
  exact loopQuery_hit f _ pre post c1 c2 t hpre h1 h2

end ScheduleLemmas

/-! ### Oscillator lemmas -/

section OscillatorLemmas

variable {α : Type} [LinearOrderedField α]
variable (sinF : α → α) (piV : α) (freqFn volFn : α → α) (sr : α)

/-- The position counter advances by exactly one per emitted sample. -/
theorem toneStateAt_pos (n : ℕ) :
    (toneStateAt sinF piV freqFn volFn sr n).pos = n := by
  induction n with
  | zero => rfl
  | succ n ih =>
    show (toneStep sinF piV freqFn volFn sr (toneStateAt sinF piV freqFn volFn sr n)).1.pos
        = n + 1
    rw [toneStep]
    simpa using congrArg Nat.succ ih

/-- One phase increment: processing sample `n` adds `2π·freqFn(n/sr)/sr`. -/
theorem toneStateAt_phase_succ (n : ℕ) :
    (toneStateAt sinF piV freqFn volFn sr (n + 1)).phase
      = (toneStateAt sinF piV freqFn volFn sr n).phase
        + 2 * piV * freqFn ((n : α) / sr) / sr := by
  show (toneStep sinF piV freqFn volFn sr (toneStateAt sinF piV freqFn volFn sr n)).1.phase = _
  rw [toneStep, toneStateAt_pos]

/-- Closed form of the accumulated phase: the sum of all increments since the
start of the stream (the phase is never reset or wrapped). -/
theorem toneStateAt_phase_sum (n : ℕ) :
    (toneStateAt sinF piV freqFn volFn sr n).phase
      = Finset.sum (Finset.range n) (fun k => 2 * piV * freqFn ((k : α) / sr) / sr) := by
  induction n with
  | zero => simp [toneStateAt]
  | succ n ih =>
    rw [toneStateAt_phase_succ, ih, Finset.sum_range_succ]

/-- The emitted sample in terms of the incremented phase and the volume. -/
theorem toneSample_eq (n : ℕ) :
    toneSample sinF piV freqFn volFn sr n
      = sinF ((toneStateAt sinF piV freqFn volFn sr n).phase
          + 2 * piV * freqFn ((n : α) / sr) / sr) * volFn ((n : α) / sr) * 0.5 := by
  show (toneStep sinF piV freqFn volFn sr (toneStateAt sinF piV freqFn volFn sr n)).2 = _
  rw [toneStep, toneStateAt_pos]

end OscillatorLemmas

/-! ### Pink-noise generator and gate lemmas -/

section PinkLemmas

variable {α : Type} [LinearOrderedField α]

/-- Shifting the start state of the generator by one drawn sample. -/
theorem pinkStateAt_shift (rnd : ℕ → α) (pn : PinkNoise α) (n : ℕ) :
    pinkStateAt rnd pn (n + 1) = pinkStateAt rnd (nextSample rnd pn).1 n := by
  induction n with
  | zero => rfl
  | succ n ih =>
    show (nextSample rnd (pinkStateAt rnd pn (n + 1))).1 = _
    rw [ih]
    rfl

/-- Sample shift: the `(n+1)`-st sample from `pn` is the `n`-th sample from
the state after one draw. -/
theorem pinkSampleAt_shift (rnd : ℕ → α) (pn : PinkNoise α) (n : ℕ) :
    pinkSampleAt rnd pn (n + 1) = pinkSampleAt rnd (nextSample rnd pn).1 n := by
  unfold pinkSampleAt
  rw [pinkStateAt_shift]

theorem pinkNoiseStreamRun_cons (rnd : ℕ → α) (pn : PinkNoise α)
    (frame : α × α) (rest : List (α × α)) :
    pinkNoiseStreamRun rnd pn (frame :: rest)
      = ((pinkNoiseStreamRun rnd (nextSample rnd pn).1 rest).1,
         (frame.1 + (nextSample rnd pn).2, frame.2 + (nextSample rnd pn).2)
           :: (pinkNoiseStreamRun rnd (nextSample rnd pn).1 rest).2) := rfl

theorem gateRun_cons (vf : α → Bool × α) (sr : α) (pos : ℕ)
    (frame : α × α) (rest : List (α × α)) :
    gateRun vf sr pos (frame :: rest)
      = ((gateRun vf sr (pos + 1) rest).1,
         (if (vf ((pos : α) / sr)).1 = false then ((0 : α), (0 : α))
          else (frame.1 * (vf ((pos : α) / sr)).2 * 0.5,
                frame.1 * (vf ((pos : α) / sr)).2 * 0.5))
           :: (gateRun vf sr (pos + 1) rest).2) := rfl

theorem pinkNoiseControlRun_snd (rnd : ℕ → α) (vf : α → Bool × α) (sr : α)
    (pn : PinkNoise α) (pos : ℕ) (buf : List (α × α)) :
    (pinkNoiseControlRun rnd vf sr pn pos buf).2
      = (gateRun vf sr pos (pinkNoiseStreamRun rnd pn buf).2).2 := rfl

/-- Closed form of one `PinkNoiseControl.Stream` call on a zeroed buffer of
`m` frames: frame `i` is `(0,0)` when the noise function reports off at
`t = (pos+i)/sr`, and otherwise carries the generator's `i`-th mono sample
scaled by `vol · 0.5` identically on both channels. -/
theorem pinkNoiseControlRun_closed (rnd : ℕ → α) (vf : α → Bool × α) (sr : α)
    (m : ℕ) (pn : PinkNoise α) (pos : ℕ) :
    (pinkNoiseControlRun rnd vf sr pn pos (List.replicate m ((0 : α), (0 : α)))).2
      = (List.range m).map (fun i =>
          if (vf (((pos + i : ℕ) : α) / sr)).1 = false then ((0 : α), (0 : α))
          else (pinkSampleAt rnd pn i * (vf (((pos + i : ℕ) : α) / sr)).2 * 0.5,
                pinkSampleAt rnd pn i * (vf (((pos + i : ℕ) : α) / sr)).2 * 0.5)) := by
  induction m generalizing pn pos with
  | zero => rfl
  | succ m ih =>
    rw [List.replicate_succ, pinkNoiseControlRun_snd, pinkNoiseStreamRun_cons]
    rw [show ((((0 : α), (0 : α)).1 + (nextSample rnd pn).2,
              ((0 : α), (0 : α)).2 + (nextSample rnd pn).2))
          = ((nextSample rnd pn).2, (nextSample rnd pn).2) by
        simp]
    rw [gateRun_cons]
    rw [List.range_succ_eq_map, List.map_cons, List.map_map]
    refine congrArg₂ _ ?_ ?_
    · have hs : pinkSampleAt rnd pn 0 = (nextSample rnd pn).2 := rfl
      rw [show pos + 0 = pos from rfl, hs]
    · rw [← pinkNoiseControlRun_snd, ih]
      apply List.map_congr_left
      intro i _
      have hcast : ((pos + Nat.succ i : ℕ) : α) = ((pos + 1 + i : ℕ) : α) := by
        rw [show pos + Nat.succ i = pos + 1 + i from by omega]
      have hsmp : pinkSampleAt rnd pn (Nat.succ i)
          = pinkSampleAt rnd (nextSample rnd pn).1 i := pinkSampleAt_shift rnd pn i
      simp only [Function.comp_apply]
      rw [show (Nat.succ i) = i + 1 from rfl] at hcast hsmp
      simp only [hcast, hsmp]

/-- If the noise query reports off at every time, the gate zeroes every
frame. -/
theorem gateRun_allOff (vf : α → Bool × α) (hoff : ∀ t, (vf t).1 = false)
    (sr : α) (pos : ℕ) (buf : List (α × α)) :
    (gateRun vf sr pos buf).2 = List.replicate buf.length ((0 : α), (0 : α)) := by
  induction buf generalizing pos with
  | nil => rfl
  | cons frame rest ih =>
    rw [gateRun_cons, if_pos (hoff ((pos : α) / sr))]
    rw [List.length_cons, List.replicate_succ]
    exact congrArg _ (ih (pos + 1))

end PinkLemmas

/-! ### Playback-time lemmas -/

section PlaybackLemmas

variable {α : Type} [LinearOrderedField α]

theorem playback_step_le (a : α) (c : ConfigFrequencyChange α) :
    a ≤ if a < c.time then c.time else a := by
  rcases lt_or_ge a c.time with h | h
  · rw [if_pos h]; exact le_of_lt h
  · rw [if_neg (not_lt.mpr h)]

theorem playback_step_ge (a : α) (c : ConfigFrequencyChange α) :
    c.time ≤ if a < c.time then c.time else a := by
  rcases lt_or_ge a c.time with h | h
  · rw [if_pos h]
  · rw [if_neg (not_lt.mpr h)]; exact h

theorem le_playback_foldl (l : List (ConfigFrequencyChange α)) (a : α) :
    a ≤ l.foldl (fun maxTime change =>
        if maxTime < change.time then change.time else maxTime) a := by
  induction l generalizing a with
  | nil => exact le_refl a
  | cons c cs ih =>
    simp only [List.foldl_cons]
    exact le_trans (playback_step_le a c) (ih _)

theorem mem_le_playback_foldl (l : List (ConfigFrequencyChange α))
    (c : ConfigFrequencyChange α) (hc : c ∈ l) (a : α) :
    c.time ≤ l.foldl (fun maxTime change =>
        if maxTime < change.time then change.time else maxTime) a := by
  induction l generalizing a with
  | nil => cases hc
  | cons x xs ih =>
    simp only [List.foldl_cons]
    rcases List.mem_cons.mp hc with h | h
    · subst h
      exact le_trans (playback_step_ge a c) (le_playback_foldl xs _)
    · exact ih h _

theorem playback_foldl_attained (l : List (ConfigFrequencyChange α)) (a : α) :
    l.foldl (fun maxTime change =>
        if maxTime < change.time then change.time else maxTime) a = a
      ∨ ∃ c ∈ l, l.foldl (fun maxTime change =>
          if maxTime < change.time then change.time else maxTime) a = c.time := by
  induction l generalizing a with
  | nil => exact Or.inl rfl
  | cons x xs ih =>
    simp only [List.foldl_cons]
    rcases lt_or_ge a x.time with hax | hax
    · rw [if_pos hax]
      rcases ih x.time with h | ⟨c, hc, h⟩
      · exact Or.inr ⟨x, List.mem_cons_self x xs, h⟩
      · exact Or.inr ⟨c, List.mem_cons_of_mem x hc, h⟩
    · rw [if_neg (not_lt.mpr hax)]
      rcases ih a with h | ⟨c, hc, h⟩
      · exact Or.inl h
      · exact Or.inr ⟨c, List.mem_cons_of_mem x hc, h⟩

/-- Every breakpoint time is at most the total playback time. -/
theorem time_le_getTotalPlaybackTime (l : List (ConfigFrequencyChange α))
    (c : ConfigFrequencyChange α) (hc : c ∈ l) :
    c.time ≤ getTotalPlaybackTime l := by
  cases l with
  | nil => cases hc
  | cons x xs =>
    show c.time ≤ (x :: xs).foldl (fun maxTime change =>
        if maxTime < change.time then change.time else maxTime) x.time
    exact mem_le_playback_foldl (x :: xs) c hc x.time

/-- On a non-empty schedule the total playback time is one of the breakpoint
times. -/
theorem getTotalPlaybackTime_attained (l : List (ConfigFrequencyChange α))
    (h : l ≠ []) : ∃ c ∈ l, getTotalPlaybackTime l = c.time := by
  cases l with
  | nil => exact absurd rfl h
  | cons x xs =>
    show ∃ c ∈ x :: xs, (x :: xs).foldl (fun maxTime change =>
        if maxTime < change.time then change.time else maxTime) x.time = c.time
    rcases playback_foldl_attained (x :: xs) x.time with he | ⟨c, hc, he⟩
    · exact ⟨x, List.mem_cons_self x xs, he⟩
    · exact ⟨c, hc, he⟩

/-- Characterization: the total playback time is zero exactly when the
schedule is empty or its maximum breakpoint time is zero. -/
theorem getTotalPlaybackTime_eq_zero_iff (l : List (ConfigFrequencyChange α)) :
    getTotalPlaybackTime l = 0
      ↔ (l = [] ∨ ((∀ c ∈ l, c.time ≤ 0) ∧ ∃ c ∈ l, c.time = 0)) := by
  constructor
  · intro h0
    cases l with
    | nil => exact Or.inl rfl
    | cons x xs =>
      refine Or.inr ⟨fun c hc => ?_, ?_⟩
      · exact h0 ▸ time_le_getTotalPlaybackTime (x :: xs) c hc
      · obtain ⟨c, hc, he⟩ := getTotalPlaybackTime_attained (x :: xs) (List.cons_ne_nil x xs)
        exact ⟨c, hc, he ▸ h0⟩
  · rintro (h | ⟨hle, c, hc, hc0⟩)
    · subst h; rfl
    · have h1 : getTotalPlaybackTime l ≤ 0 := by
        obtain ⟨c2, hc2, he2⟩ := getTotalPlaybackTime_attained l
          (List.ne_nil_of_mem hc)
        rw [he2]
        exact hle c2 hc2
      have h2 : (0 : α) ≤ getTotalPlaybackTime l :=
        hc0 ▸ time_le_getTotalPlaybackTime l c hc
      exact le_antisymm h1 h2

end PlaybackLemmas

/-! ### Noise-flag lemmas -/

section NoiseFlagLemmas

variable {α : Type} [LinearOrderedField α]

theorem loopQuery_noise_flag (d : Bool × α) (hd : d.1 = false)
    (l : List (ConfigFrequencyChange α))
    (hall : ∀ c ∈ l, c.pinkNoiseOn = false) (t : α) :
    (loopQuery (fun c1 _ _ => noisePair c1) d l t).1 = false := by
  induction l with
  | nil => exact hd
  | cons c cs ih =>
    cases cs with
    | nil => exact hd
    | cons c2 cs2 =>
      rw [loopQuery_cons_cons]
      by_cases hg : c.time ≤ t ∧ t < c2.time
      · rw [if_pos hg]
        exact hall c (List.mem_cons_self c (c2 :: cs2))
      · rw [if_neg hg]
        exact ih (fun x hx => hall x (List.mem_cons_of_mem c hx))

/-- If every breakpoint's noise flag is off, the noise query reports off at
every time. -/
theorem createPinkNoiseFunc_flag_off (changes : List (ConfigFrequencyChange α))
    (hall : ∀ c ∈ changes, c.pinkNoiseOn = false) (t : α) :
    (createPinkNoiseFunc changes t).1 = false := by
  unfold createPinkNoiseFunc
  by_cases h : changes = []
  · subst h; rfl
  · by_cases h1 : t ≤ (changes.head h).time
    · rw [scheduleQuery_first noisePair _ _ changes t h h1]
      exact hall _ (List.head_mem h)
    · by_cases h2 : (changes.getLast h).time ≤ t
      · rw [scheduleQuery_last noisePair _ _ changes t h h1 h2]
        exact hall _ (List.getLast_mem h)
      · rw [scheduleQuery_loop noisePair _ _ changes t h h1 h2]
        exact loopQuery_noise_flag _ (hall _ (List.getLast_mem h)) changes hall t

end NoiseFlagLemmas

/-! ### Checked-evaluation lemmas -/

section CheckedLemmas

variable {α : Type} [LinearOrderedField α] {β : Type}
variable (g : ConfigFrequencyChange α → β)
variable (f : ConfigFrequencyChange α → ConfigFrequencyChange α → α → β)
variable (d : β)

theorem loopQueryChecked_cons_cons (c1 c2 : ConfigFrequencyChange α)
    (rest : List (ConfigFrequencyChange α)) (t : α) :
    loopQueryChecked f d (c1 :: c2 :: rest) t =
      if c1.time ≤ t ∧ t < c2.time then
        if 0 < c2.time - c1.time then some (f c1 c2 t) else none
      else loopQueryChecked f d (c2 :: rest) t := by
  rw [loopQueryChecked]

/-- Whenever the interpolation branch is taken, its divisor is strictly
positive, so the checked loop never reports a division hazard. -/
theorem loopQueryChecked_eq (l : List (ConfigFrequencyChange α)) (t : α) :
    loopQueryChecked f d l t = some (loopQuery f d l t) := by
  induction l with
  | nil => rfl
  | cons c cs ih =>
    cases cs with
    | nil => rfl
    | cons c2 cs2 =>
      rw [loopQueryChecked_cons_cons, loopQuery_cons_cons]
      by_cases hg : c.time ≤ t ∧ t < c2.time
      · rw [if_pos hg, if_pos hg,
          if_pos (sub_pos.mpr (lt_of_le_of_lt hg.1 hg.2))]
      · rw [if_neg hg, if_neg hg]
        exact ih

theorem scheduleQueryChecked_eq (changes : List (ConfigFrequencyChange α)) (t : α) :
    scheduleQueryChecked g f d changes t = some (scheduleQuery g f d changes t) := by
  unfold scheduleQueryChecked scheduleQuery
  by_cases h : changes = []
  · rw [dif_pos h, dif_pos h]
  · rw [dif_neg h, dif_neg h]
    by_cases h1 : t ≤ (changes.head h).time
    · rw [if_pos h1, if_pos h1]
    · rw [if_neg h1, if_neg h1]
      by_cases h2 : (changes.getLast h).time ≤ t
      · rw [if_pos h2, if_pos h2]
      · rw [if_neg h2, if_neg h2]
        exact loopQueryChecked_eq f _ changes t

end CheckedLemmas

/-! ### Further stream lemmas -/

section StreamLengthLemmas

variable {α : Type} [LinearOrderedField α]

theorem pinkNoiseStreamRun_length (rnd : ℕ → α) (pn : PinkNoise α)
    (buf : List (α × α)) :
    (pinkNoiseStreamRun rnd pn buf).2.length = buf.length := by
  induction buf generalizing pn with
  | nil => rfl
  | cons frame rest ih =>
    rw [pinkNoiseStreamRun_cons]
    simpa using ih (nextSample rnd pn).1

end StreamLengthLemmas

/-! ### Duplicate-time (tie-break) lemmas -/

theorem headOr_append {X : Type} (d : X) (pre : List X) (x : X) :
    headOr d (pre ++ [x]) = headOr x pre := by
  cases pre <;> rfl

section DupLemmas

variable {α : Type} [LinearOrderedField α] {β : Type}
variable (g : ConfigFrequencyChange α → β)
variable (f : ConfigFrequencyChange α → ConfigFrequencyChange α → α → β)
variable (d : β)

/-- At the left endpoint the linear interpolation returns the left value. -/
theorem linearInterp_at_left (v : ConfigFrequencyChange α → α)
    (a b : ConfigFrequencyChange α) (t : α) (ht : t = a.time) :
    linearInterp v a b t = v a := by
  unfold linearInterp
  rw [ht, sub_self, mul_zero, zero_div, add_zero]

/-- Duplicate time at the end of the schedule, queried at the duplicated
time with an earlier breakpoint present: the later duplicate wins via the
last-breakpoint clamp. -/
theorem scheduleQuery_dup_at_end (pre : List (ConfigFrequencyChange α))
    (c1 c2 : ConfigFrequencyChange α) (hdup : c2.time = c1.time)
    (hpreCross : ∀ x ∈ pre, x.time < c1.time) (hpre_ne : pre ≠ []) :
    scheduleQuery g f d (pre ++ c1 :: c2 :: []) c1.time = g c2 := by
  have hne : pre ++ c1 :: c2 :: [] ≠ [] := by
    intro hcontra
    exact absurd (List.append_eq_nil.mp hcontra).2 (List.cons_ne_nil c1 [c2])
  have hhead : ((pre ++ c1 :: c2 :: []).head hne) = headOr c1 pre :=
    head_append_cons pre c1 [c2] hne
  have hlastAll : ((pre ++ c1 :: c2 :: []).getLast hne) = c2 := by
    rw [getLast_append_cons pre c1 [c2] hne]
    rfl
  have hheadlt : (headOr c1 pre).time < c1.time := by
    cases pre with
    | nil => exact absurd rfl hpre_ne
    | cons q qs => exact hpreCross q (List.mem_cons_self q qs)
  have e := scheduleQuery_last g f d (pre ++ c1 :: c2 :: []) c1.time hne
    (by rw [hhead]; exact not_le.mpr hheadlt)
    (by rw [hlastAll, hdup])
  rw [e, hlastAll]

/-- Duplicate time in the middle of the schedule, queried at the duplicated
time with an earlier breakpoint present: the interval `[c2.time, p0.time)`
beginning at the later duplicate is hit, yielding the loop branch on
`(c2, p0)`. -/
theorem scheduleQuery_dup_at_mid (pre post2 : List (ConfigFrequencyChange α))
    (c1 c2 p0 : ConfigFrequencyChange α) (hdup : c2.time = c1.time)
    (hpreCross : ∀ x ∈ pre, x.time < c1.time) (hpre_ne : pre ≠ [])
    (hp0 : c2.time < p0.time) (hpost2 : ∀ b ∈ post2, p0.time < b.time) :
    scheduleQuery g f d (pre ++ c1 :: c2 :: p0 :: post2) c1.time
      = f c2 p0 c1.time := by
  rw [show pre ++ c1 :: c2 :: p0 :: post2
        = (pre ++ [c1]) ++ c2 :: p0 :: post2 by simp]
  apply scheduleQuery_interior
  · intro x hx
    rcases List.mem_append.mp hx with hx | hx
    · exact le_of_lt (hpreCross x hx)
    · rw [List.mem_singleton.mp hx]
  · rw [hdup]
  · rw [← hdup]
    exact hp0
  · rw [headOr_append]
    cases pre with
    | nil => exact absurd rfl hpre_ne
    | cons q qs => exact hpreCross q (List.mem_cons_self q qs)
  · rcases List.mem_cons.mp (lastOr_mem_cons post2 p0) with he | hm
    · rw [he, ← hdup]
      exact hp0
    · rw [← hdup]
      exact lt_trans hp0 (hpost2 _ hm)

/-- Strictly after a duplicate that ends the schedule, the last-breakpoint
clamp yields the later duplicate's value. -/
theorem scheduleQuery_after_dup_end (pre : List (ConfigFrequencyChange α))
    (c1 c2 : ConfigFrequencyChange α) (s : α) (hdup : c2.time = c1.time)
    (hheadle : (headOr c1 pre).time ≤ c1.time) (hs : c1.time < s) :
    scheduleQuery g f d (pre ++ c1 :: c2 :: []) s = g c2 := by
  have hne : pre ++ c1 :: c2 :: [] ≠ [] := by
    intro hcontra
    exact absurd (List.append_eq_nil.mp hcontra).2 (List.cons_ne_nil c1 [c2])
  have hhead : ((pre ++ c1 :: c2 :: []).head hne) = headOr c1 pre :=
    head_append_cons pre c1 [c2] hne
  have hlastAll : ((pre ++ c1 :: c2 :: []).getLast hne) = c2 := by
    rw [getLast_append_cons pre c1 [c2] hne]
    rfl
  have e := scheduleQuery_last g f d (pre ++ c1 :: c2 :: []) s hne
    (by rw [hhead]; exact not_le.mpr (lt_of_le_of_lt hheadle hs))
    (by rw [hlastAll, hdup]; exact le_of_lt hs)
  rw [e, hlastAll]

/-- Between a duplicate and the following breakpoint, the query evaluates the
loop branch on the later duplicate and that following breakpoint. -/
theorem scheduleQuery_after_dup_mid (pre post2 : List (ConfigFrequencyChange α))
    (c1 c2 p0 : ConfigFrequencyChange α) (s : α) (hdup : c2.time = c1.time)
    (hpreCross : ∀ x ∈ pre, x.time < c1.time)
    (hheadle : (headOr c1 pre).time ≤ c1.time)
    (hs : c1.time < s) (hsp0 : s < p0.time)
    (hpost2 : ∀ b ∈ post2, p0.time < b.time) :
    scheduleQuery g f d (pre ++ c1 :: c2 :: p0 :: post2) s = f c2 p0 s := by
  rw [show pre ++ c1 :: c2 :: p0 :: post2
        = (pre ++ [c1]) ++ c2 :: p0 :: post2 by simp]
  apply scheduleQuery_interior
  · intro x hx
    rcases List.mem_append.mp hx with hx | hx
    · exact le_of_lt (lt_trans (hpreCross x hx) hs)
    · rw [List.mem_singleton.mp hx]
      exact le_of_lt hs
  · rw [hdup]
    exact le_of_lt hs
  · exact hsp0
  · rw [headOr_append]
    exact lt_of_le_of_lt hheadle hs
  · rcases List.mem_cons.mp (lastOr_mem_cons post2 p0) with he | hm
    · rw [he]
      exact hsp0
    · exact lt_trans hsp0 (hpost2 _ hm)

/-- Strictly before a duplicate, in the interval beginning at the breakpoint
`p` that precedes it: the query evaluates the loop branch on `(p, c1)` (the
earlier duplicate bounds the interval from above); at the corner `s = p.time`
with nothing before `p`, the first-breakpoint clamp returns `g p`, which
coincides with the branch value supplied through `hfg`. -/
theorem scheduleQuery_before_dup (pre2 post : List (ConfigFrequencyChange α))
    (p c1 c2 : ConfigFrequencyChange α) (s : α)
    (hpre2Cross : ∀ x ∈ pre2, x.time < p.time)
    (hps : p.time ≤ s) (hsc1 : s < c1.time)
    (hlastge : c1.time ≤ (lastOr c2 post).time)
    (hfg : f p c1 p.time = g p) :
    scheduleQuery g f d ((pre2 ++ [p]) ++ c1 :: c2 :: post) s = f p c1 s := by
  rw [show (pre2 ++ [p]) ++ c1 :: c2 :: post = pre2 ++ p :: c1 :: c2 :: post by simp]
  by_cases hcorner : pre2 = [] ∧ p.time = s
  · obtain ⟨hc1e, hc2e⟩ := hcorner
    subst hc1e
    have hne : ([] : List (ConfigFrequencyChange α)) ++ p :: c1 :: c2 :: post ≠ [] := by
      simp
    have e := scheduleQuery_first g f d ([] ++ p :: c1 :: c2 :: post) s hne
      (by
        rw [head_append_cons [] p (c1 :: c2 :: post) hne]
        exact le_of_eq hc2e.symm)
    rw [e, head_append_cons [] p (c1 :: c2 :: post) hne]
    rw [show headOr p ([] : List (ConfigFrequencyChange α)) = p from rfl]
    rw [← hfg, hc2e]
  · apply scheduleQuery_interior
    · intro x hx
      exact le_of_lt (lt_of_lt_of_le (hpre2Cross x hx) hps)
    · exact hps
    · exact hsc1
    · cases pre2 with
      | nil =>
        rcases lt_or_eq_of_le hps with h | h
        · exact h
        · exact absurd ⟨rfl, h⟩ hcorner
      | cons q qs =>
        exact lt_of_lt_of_le (hpre2Cross q (List.mem_cons_self q qs)) hps
    · rw [show lastOr c1 (c2 :: post) = lastOr c2 post from rfl]
      exact lt_of_lt_of_le hsc1 hlastge

end DupLemmas

/-! ### Claim theorems -/

/-- C1: for every oscillator and every sample at integer position `n` with
sample rate `R`, with `t = n/R` the phase increment `2π·frequencyAt(t)/R` is
added to the accumulated phase, the phase is the un-reset, un-wrapped sum of
all increments since stream start, the emitted sample is
`sin(phase)·volumeAt(t)·0.5`, and the left/right channel closures use
`frequency(t)` resp. `frequency(t) + beatFrequency(t)`. -/
theorem oscillator_phase_accumulation :
    ∀ (freqFn volFn : ℝ → ℝ) (sr : ℝ) (n : ℕ),
      (toneStateAt Real.sin Real.pi freqFn volFn sr n).pos = n
      ∧ (toneStateAt Real.sin Real.pi freqFn volFn sr (n + 1)).phase
          = (toneStateAt Real.sin Real.pi freqFn volFn sr n).phase
            + 2 * Real.pi * freqFn ((n : ℝ) / sr) / sr
      ∧ (toneStateAt Real.sin Real.pi freqFn volFn sr n).phase
          = Finset.sum (Finset.range n)
              (fun k => 2 * Real.pi * freqFn ((k : ℝ) / sr) / sr)
      ∧ toneSample Real.sin Real.pi freqFn volFn sr n
          = Real.sin ((toneStateAt Real.sin Real.pi freqFn volFn sr n).phase
              + 2 * Real.pi * freqFn ((n : ℝ) / sr) / sr)
            * volFn ((n : ℝ) / sr) * 0.5
      ∧ (∀ (changes : List (ConfigFrequencyChange ℝ)) (t : ℝ),
          freqFuncLeft changes t = createFreqFunc changes t
          ∧ freqFuncRight changes t
              = createFreqFunc changes t + createBeatFreqFunc changes t) :=
  fun freqFn volFn sr n =>
    ⟨toneStateAt_pos Real.sin Real.pi freqFn volFn sr n,
     toneStateAt_phase_succ Real.sin Real.pi freqFn volFn sr n,
     toneStateAt_phase_sum Real.sin Real.pi freqFn volFn sr n,
     toneSample_eq Real.sin Real.pi freqFn volFn sr n,
     fun _ _ => ⟨rfl, rfl⟩⟩

/-- C5: for every breakpoint sequence (in particular any with two consecutive
equal times) and every `t`, the division-checked evaluators agree with the
plain ones and never report a zero divisor: whenever the interpolation branch
is taken its divisor is strictly positive. -/
theorem no_division_by_zero {α : Type} [LinearOrderedField α] :
    ∀ (changes : List (ConfigFrequencyChange α)) (t : α),
      createFreqFuncChecked changes t = some (createFreqFunc changes t)
      ∧ createBeatFreqFuncChecked changes t = some (createBeatFreqFunc changes t)
      ∧ createVolumeFuncChecked changes t = some (createVolumeFunc changes t) :=
  fun changes t =>
    ⟨scheduleQueryChecked_eq _ _ _ changes t,
     scheduleQueryChecked_eq _ _ _ changes t,
     scheduleQueryChecked_eq _ _ _ changes t⟩

/-- C7 counterexample: the claim that the first emitted oscillator sample is
always exactly zero is false — with `frequencyAt(0) = 11025` and `R = 44100`
the very first sample is `sin(π/2)·1·0.5 = 0.5 ≠ 0`, because the code adds
the first phase increment before taking the sine. -/
theorem first_sample_cex :
    toneSample Real.sin Real.pi (fun _ => (11025 : ℝ)) (fun _ => 1) 44100 0 = 0.5
    ∧ (0.5 : ℝ) ≠ 0 := by
  constructor
  · rw [toneSample_eq Real.sin Real.pi (fun _ => (11025 : ℝ)) (fun _ => 1) 44100 0]
    rw [show (toneStateAt Real.sin Real.pi (fun _ => (11025 : ℝ))
          (fun _ => 1) 44100 0).phase = 0 from rfl]
    rw [zero_add]
    rw [show (2 * Real.pi * ((fun _ => (11025 : ℝ)) (((0 : ℕ) : ℝ) / 44100)) / 44100 : ℝ)
          = Real.pi / 2 by ring]
    rw [Real.sin_pi_div_two]
    norm_num
  · norm_num

/-- C7 (amended): the first emitted sample equals
`sin(2π·frequencyAt(0)/R)·volumeAt(0)·0.5` — the phase increment is applied
before the sine is taken, so the first sample is generally nonzero; it is
zero whenever `frequencyAt(0) = 0`. -/
theorem first_sample_amended (freqFn volFn : ℝ → ℝ) (sr : ℝ) :
    toneSample Real.sin Real.pi freqFn volFn sr 0
      = Real.sin (2 * Real.pi * freqFn 0 / sr) * volFn 0 * 0.5
    ∧ (freqFn 0 = 0 → toneSample Real.sin Real.pi freqFn volFn sr 0 = 0) := by
  have h := toneSample_eq Real.sin Real.pi freqFn volFn sr 0
  rw [show (toneStateAt Real.sin Real.pi freqFn volFn sr 0).phase = 0 from rfl,
    zero_add] at h
  rw [show (((0 : ℕ) : ℝ) / sr) = (0 : ℝ) by rw [Nat.cast_zero, zero_div]] at h
  constructor
  · exact h
  · intro hf
    rw [h, hf]
    rw [show (2 * Real.pi * (0 : ℝ) / sr : ℝ) = 0 by ring]
    rw [Real.sin_zero, zero_mul, zero_mul]

/-- Witness for C7 (amended): with zero frequency the first sample is zero. -/
theorem first_sample_amended_witness :
    toneSample Real.sin Real.pi (fun _ => (0 : ℝ)) (fun _ => 1) 44100 0 = 0 :=
  (first_sample_amended (fun _ => (0 : ℝ)) (fun _ => 1) 44100).2 rfl

/-- C8: per frame at position `pos + i` (`t = (pos+i)/sr`) of a noise-gate
call on a zeroed buffer, if `noise(t)` reports off the output frame is
`(0,0)` on both channels, and if on with volume `v` both channels carry the
identical mono generator sample scaled by `v·0.5`; in particular left always
equals right. -/
theorem noise_gate_spec {α : Type} [LinearOrderedField α] (rnd : ℕ → α)
    (vf : α → Bool × α) (sr : α) (m : ℕ) (pn : PinkNoise α) (pos : ℕ) :
    ((pinkNoiseControlRun rnd vf sr pn pos (List.replicate m ((0 : α), (0 : α)))).2
      = (List.range m).map (fun i =>
          if (vf (((pos + i : ℕ) : α) / sr)).1 = false then ((0 : α), (0 : α))
          else (pinkSampleAt rnd pn i * (vf (((pos + i : ℕ) : α) / sr)).2 * 0.5,
                pinkSampleAt rnd pn i * (vf (((pos + i : ℕ) : α) / sr)).2 * 0.5)))
    ∧ ∀ fr ∈ (pinkNoiseControlRun rnd vf sr pn pos
        (List.replicate m ((0 : α), (0 : α)))).2, fr.1 = fr.2 := by
  refine ⟨pinkNoiseControlRun_closed rnd vf sr m pn pos, ?_⟩
  intro fr hfr
  rw [pinkNoiseControlRun_closed rnd vf sr m pn pos] at hfr
  obtain ⟨i, _, hi⟩ := List.mem_map.mp hfr
  by_cases hoff : (vf (((pos + i : ℕ) : α) / sr)).1 = false
  · rw [if_pos hoff] at hi
    rw [← hi]
  · rw [if_neg hoff] at hi
    rw [← hi]

/-- Witness for C8: on a concrete one-frame run the emitted frame is a member
of the gate output and has equal left and right channels. -/
theorem noise_gate_spec_witness :
    ((0 : ℚ), (0 : ℚ)) ∈ (pinkNoiseControlRun (fun _ => (1 : ℚ)/2)
        (fun _ => (false, 0)) 2 newPinkNoise 0
        (List.replicate 1 ((0 : ℚ), (0 : ℚ)))).2
    ∧ ((0 : ℚ), (0 : ℚ)).1 = ((0 : ℚ), (0 : ℚ)).2 :=
  ⟨by decide,
   (noise_gate_spec (fun _ => (1 : ℚ)/2) (fun _ => (false, 0)) 2 1 newPinkNoise 0).2
     ((0 : ℚ), (0 : ℚ)) (by decide)⟩

/-- C9: the playback-fatal check fires exactly when the (stretched) schedule
is empty or its maximum breakpoint time is zero; `getTotalPlaybackTime` is an
upper bound on all breakpoint times, is attained on non-empty schedules, and
is `0` on the empty schedule. -/
theorem total_playback_time_spec {α : Type} [LinearOrderedField α] (k : α)
    (changes : List (ConfigFrequencyChange α)) :
    (playbackFatal k changes = true
        ↔ (changes = []
            ∨ ((∀ c ∈ applyStretch k changes, c.time ≤ 0)
                ∧ ∃ c ∈ applyStretch k changes, c.time = 0)))
    ∧ (∀ c ∈ changes, c.time ≤ getTotalPlaybackTime changes)
    ∧ (changes ≠ [] → ∃ c ∈ changes, getTotalPlaybackTime changes = c.time)
    ∧ getTotalPlaybackTime ([] : List (ConfigFrequencyChange α)) = 0 := by
  refine ⟨?_, fun c hc => time_le_getTotalPlaybackTime changes c hc,
    fun h => getTotalPlaybackTime_attained changes h, rfl⟩
  unfold playbackFatal
  rw [decide_eq_true_iff]
  rw [getTotalPlaybackTime_eq_zero_iff]
  constructor
  · rintro (h | h)
    · exact Or.inl (List.map_eq_nil_iff.mp h)
    · exact Or.inr h
  · rintro (h | h)
    · refine Or.inl ?_
      rw [h]
      rfl
    · exact Or.inr h

/-- Witness for C9: on the one-breakpoint schedule at time 5 the total
playback time is attained at a breakpoint. -/
theorem total_playback_time_witness :
    ∃ c ∈ ([⟨5, 0, 0, false, 0, 0⟩] : List (ConfigFrequencyChange ℚ)),
      getTotalPlaybackTime ([⟨5, 0, 0, false, 0, 0⟩] : List (ConfigFrequencyChange ℚ))
        = c.time :=
  (total_playback_time_spec (1 : ℚ) [⟨5, 0, 0, false, 0, 0⟩]).2.2.1
    (List.cons_ne_nil _ _)

/-- C2: on a schedule with strictly increasing times, for `t` strictly
between two consecutive breakpoint times the three linear queries return
exactly `v_i + (v_{i+1} - v_i)·(t - time_i)/(time_{i+1} - time_i)`. -/
theorem interior_linear_interpolation {α : Type} [LinearOrderedField α]
    (pre post : List (ConfigFrequencyChange α))
    (c1 c2 : ConfigFrequencyChange α) (t : α)
    (hsort : (pre ++ c1 :: c2 :: post).Pairwise (fun a b => a.time < b.time))
    (h1 : c1.time < t) (h2 : t < c2.time) :
    createFreqFunc (pre ++ c1 :: c2 :: post) t
        = c1.frequency
          + (c2.frequency - c1.frequency) * (t - c1.time) / (c2.time - c1.time)
    ∧ createBeatFreqFunc (pre ++ c1 :: c2 :: post) t
        = c1.beatFrequency
          + (c2.beatFrequency - c1.beatFrequency) * (t - c1.time) / (c2.time - c1.time)
    ∧ createVolumeFunc (pre ++ c1 :: c2 :: post) t
        = c1.toneVolume
          + (c2.toneVolume - c1.toneVolume) * (t - c1.time) / (c2.time - c1.time) := by
  obtain ⟨hpwPre, hpwRest, hcross⟩ := List.pairwise_append.mp hsort
  have hc1rest : ∀ b ∈ c2 :: post, c1.time < b.time :=
    (List.pairwise_cons.mp hpwRest).1
  have hc2post : ∀ b ∈ post, c2.time < b.time :=
    (List.pairwise_cons.mp (List.pairwise_cons.mp hpwRest).2).1
  have hpre : ∀ x ∈ pre, x.time ≤ t := fun x hx =>
    le_of_lt (lt_trans
      (hcross x hx c1 (List.mem_cons_self c1 (c2 :: post))) h1)
  have hh : (headOr c1 pre).time < t := by
    cases pre with
    | nil => exact h1
    | cons p ps =>
      exact lt_trans
        (hcross p (List.mem_cons_self p ps) c1 (List.mem_cons_self c1 (c2 :: post))) h1
  have hl : t < (lastOr c2 post).time := by
    rcases List.mem_cons.mp (lastOr_mem_cons post c2) with he | hm
    · rw [he]
      exact h2
    · exact lt_trans h2 (hc2post _ hm)
  exact ⟨scheduleQuery_interior (fun c => c.frequency)
      (linearInterp (fun c => c.frequency)) 0 pre post c1 c2 t
      hpre (le_of_lt h1) h2 hh hl,
    scheduleQuery_interior (fun c => c.beatFrequency)
      (linearInterp (fun c => c.beatFrequency)) 0 pre post c1 c2 t
      hpre (le_of_lt h1) h2 hh hl,
    scheduleQuery_interior (fun c => c.toneVolume)
      (linearInterp (fun c => c.toneVolume)) 1 pre post c1 c2 t
      hpre (le_of_lt h1) h2 hh hl⟩

/-- Witness for C2: on the schedule with breakpoints at time 0 (frequency
100) and time 10 (frequency 200), `frequency(5) = 150` exactly. -/
theorem interior_linear_interpolation_witness :
    createFreqFunc (α := ℚ)
      [⟨0, 100, 0, false, 0, 0⟩, ⟨10, 200, 0, false, 0, 0⟩] 5 = 150 := by
  have h := interior_linear_interpolation (α := ℚ) [] []
    ⟨0, 100, 0, false, 0, 0⟩ ⟨10, 200, 0, false, 0, 0⟩ 5
    (by decide) (by norm_num) (by norm_num)
  rw [List.nil_append] at h
  rw [h.1]
  norm_num

/-- C3 counterexample: with two breakpoints sharing time 0 (frequencies 100
and 200), `t = 0` is at/after the last breakpoint's time yet `frequency(0)`
returns the first breakpoint's 100, not the last's 200, because the
first-breakpoint clamp is checked first. -/
theorem boundary_clamp_cex :
    ((([⟨0, 100, 0, false, 0, 0⟩, ⟨0, 200, 0, false, 0, 0⟩] :
        List (ConfigFrequencyChange ℚ)).getLast
          (List.cons_ne_nil _ _)).time ≤ (0 : ℚ))
    ∧ createFreqFunc ([⟨0, 100, 0, false, 0, 0⟩, ⟨0, 200, 0, false, 0, 0⟩] :
        List (ConfigFrequencyChange ℚ)) 0 = 100
    ∧ (([⟨0, 100, 0, false, 0, 0⟩, ⟨0, 200, 0, false, 0, 0⟩] :
        List (ConfigFrequencyChange ℚ)).getLast
          (List.cons_ne_nil _ _)).frequency = 200
    ∧ (100 : ℚ) ≠ 200 := by
  refine ⟨by decide, by decide, by decide, by norm_num⟩

/-- C3 (amended): the lower clamp is unconditional — for `t ≤` the first
breakpoint's time the three linear queries return the first breakpoint's
field; the upper clamp — for `t ≥` the last breakpoint's time they return the
last breakpoint's field — holds provided `t` is not simultaneously `≤` the
first breakpoint's time (possible only when first and last times coincide at
`t`, in which case the first breakpoint's value is returned); the queries are
total, so they never fail for any `t`. -/
theorem boundary_clamp_amended {α : Type} [LinearOrderedField α]
    (changes : List (ConfigFrequencyChange α)) (h : changes ≠ []) (t : α) :
    (t ≤ (changes.head h).time →
      createFreqFunc changes t = (changes.head h).frequency
      ∧ createBeatFreqFunc changes t = (changes.head h).beatFrequency
      ∧ createVolumeFunc changes t = (changes.head h).toneVolume)
    ∧ (¬ t ≤ (changes.head h).time → (changes.getLast h).time ≤ t →
      createFreqFunc changes t = (changes.getLast h).frequency
      ∧ createBeatFreqFunc changes t = (changes.getLast h).beatFrequency
      ∧ createVolumeFunc changes t = (changes.getLast h).toneVolume) := by
  constructor
  · intro ht
    exact ⟨scheduleQuery_first (fun c => c.frequency) _ 0 changes t h ht,
      scheduleQuery_first (fun c => c.beatFrequency) _ 0 changes t h ht,
      scheduleQuery_first (fun c => c.toneVolume) _ 1 changes t h ht⟩
  · intro ht1 ht2
    exact ⟨scheduleQuery_last (fun c => c.frequency) _ 0 changes t h ht1 ht2,
      scheduleQuery_last (fun c => c.beatFrequency) _ 0 changes t h ht1 ht2,
      scheduleQuery_last (fun c => c.toneVolume) _ 1 changes t h ht1 ht2⟩

/-- Witness for C3 (amended): below-range and above-range times clamp to the
first resp. last breakpoint's frequency. -/
theorem boundary_clamp_amended_witness :
    createFreqFunc (α := ℚ)
      [⟨0, 100, 3, false, 0, 7⟩, ⟨10, 200, 4, false, 0, 8⟩] (-1) = 100
    ∧ createFreqFunc (α := ℚ)
      [⟨0, 100, 3, false, 0, 7⟩, ⟨10, 200, 4, false, 0, 8⟩] 11 = 200 := by
  constructor
  · exact ((boundary_clamp_amended (α := ℚ)
      [⟨0, 100, 3, false, 0, 7⟩, ⟨10, 200, 4, false, 0, 8⟩]
      (List.cons_ne_nil _ _) (-1)).1 (by decide)).1
  · exact (((boundary_clamp_amended (α := ℚ)
      [⟨0, 100, 3, false, 0, 7⟩, ⟨10, 200, 4, false, 0, 8⟩]
      (List.cons_ne_nil _ _) 11).2 (by decide) (by decide)).1)

/-- C4: with strictly increasing times, the noise query is a step function —
on `[time_i, time_{i+1})` it returns breakpoint `i`'s `(noiseOn, noiseVolume)`
pair with no interpolation, and it clamps to the first pair at/below the
first time and to the last pair at/above the last time. -/
theorem noise_step_function {α : Type} [LinearOrderedField α]
    (pre post : List (ConfigFrequencyChange α))
    (c1 c2 : ConfigFrequencyChange α) (t : α)
    (hsort : (pre ++ c1 :: c2 :: post).Pairwise (fun a b => a.time < b.time))
    (h1 : c1.time ≤ t) (h2 : t < c2.time) :
    createPinkNoiseFunc (pre ++ c1 :: c2 :: post) t
        = (c1.pinkNoiseOn, c1.pinkNoiseVolume)
    ∧ (∀ s, s ≤ (headOr c1 pre).time →
        createPinkNoiseFunc (pre ++ c1 :: c2 :: post) s
          = ((headOr c1 pre).pinkNoiseOn, (headOr c1 pre).pinkNoiseVolume))
    ∧ (∀ s, (lastOr c2 post).time ≤ s →
        createPinkNoiseFunc (pre ++ c1 :: c2 :: post) s
          = ((lastOr c2 post).pinkNoiseOn, (lastOr c2 post).pinkNoiseVolume)) := by
  have hne : pre ++ c1 :: c2 :: post ≠ [] := by
    intro hcontra
    exact absurd (List.append_eq_nil.mp hcontra).2 (List.cons_ne_nil c1 (c2 :: post))
  have hhead : ((pre ++ c1 :: c2 :: post).head hne) = headOr c1 pre :=
    head_append_cons pre c1 (c2 :: post) hne
  have hlastAll : ((pre ++ c1 :: c2 :: post).getLast hne) = lastOr c2 post := by
    rw [getLast_append_cons pre c1 (c2 :: post) hne]
    rfl
  obtain ⟨hpwPre, hpwRest, hcross⟩ := List.pairwise_append.mp hsort
  have hc1rest : ∀ b ∈ c2 :: post, c1.time < b.time :=
    (List.pairwise_cons.mp hpwRest).1
  have hc2post : ∀ b ∈ post, c2.time < b.time :=
    (List.pairwise_cons.mp (List.pairwise_cons.mp hpwRest).2).1
  have hc1last : c1.time < (lastOr c2 post).time :=
    hc1rest _ (lastOr_mem_cons post c2)
  have hheadc1 : (headOr c1 pre).time ≤ c1.time := by
    cases pre with
    | nil => exact le_refl c1.time
    | cons p ps =>
      exact le_of_lt
        (hcross p (List.mem_cons_self p ps) c1 (List.mem_cons_self c1 (c2 :: post)))
  refine ⟨?_, ?_, ?_⟩
  · by_cases hc : t ≤ (headOr c1 pre).time
    · cases pre with
      | nil =>
        have e := scheduleQuery_first noisePair (fun a _ _ => noisePair a)
          ((false : Bool), (0 : α)) _ t hne (by rw [hhead]; exact hc)
        unfold createPinkNoiseFunc
        rw [e, hhead]
        rfl
      | cons p ps =>
        exfalso
        have hpc1 : (headOr c1 (p :: ps)).time < c1.time :=
          hcross p (List.mem_cons_self p ps) c1 (List.mem_cons_self c1 (c2 :: post))
        exact absurd (le_trans h1 hc) (not_le.mpr hpc1)
    · have hh : (headOr c1 pre).time < t := not_le.mp hc
      have hl : t < (lastOr c2 post).time := by
        rcases List.mem_cons.mp (lastOr_mem_cons post c2) with he | hm
        · rw [he]
          exact h2
        · exact lt_trans h2 (hc2post _ hm)
      have hpre : ∀ x ∈ pre, x.time ≤ t := fun x hx =>
        le_trans (le_of_lt
          (hcross x hx c1 (List.mem_cons_self c1 (c2 :: post)))) h1
      exact scheduleQuery_interior noisePair (fun a _ _ => noisePair a)
        ((false : Bool), (0 : α)) pre post c1 c2 t hpre h1 h2 hh hl
  · intro s hs
    have e := scheduleQuery_first noisePair (fun a _ _ => noisePair a)
      ((false : Bool), (0 : α)) _ s hne (by rw [hhead]; exact hs)
    unfold createPinkNoiseFunc
    rw [e, hhead]
    rfl
  · intro s hs
    have hheadlast : (headOr c1 pre).time < (lastOr c2 post).time :=
      lt_of_le_of_lt hheadc1 hc1last
    have e := scheduleQuery_last noisePair (fun a _ _ => noisePair a)
      ((false : Bool), (0 : α)) _ s hne
      (by
        rw [hhead]
        exact not_le.mpr (lt_of_lt_of_le hheadlast hs))
      (by rw [hlastAll]; exact hs)
    unfold createPinkNoiseFunc
    rw [e, hlastAll]
    rfl

/-- Witness for C4: inside `[0, 10)` the noise query returns the first
breakpoint's pair `(true, 2/5)`. -/
theorem noise_step_function_witness :
    createPinkNoiseFunc (α := ℚ)
      [⟨0, 300, 10, true, 2/5, 1/10⟩, ⟨10, 150, 6, false, 0, 3/20⟩] 3
      = (true, 2/5) := by
  have h := noise_step_function (α := ℚ) [] []
    ⟨0, 300, 10, true, 2/5, 1/10⟩ ⟨10, 150, 6, false, 0, 3/20⟩ 3
    (by decide) (by norm_num) (by norm_num)
  rw [List.nil_append] at h
  exact h.1

/-- C6 counterexample: with the duplicated time being the first breakpoint's
time (two breakpoints at time 0 with frequencies 100 and 200) and `t = 0`
exactly, the claim mandates the later breakpoint's 200, but the query returns
the earlier breakpoint's 100 — the first-breakpoint clamp `t <= changes[0].Time`
fires before the tie-break can. -/
theorem duplicate_time_tiebreak_cex :
    createFreqFunc (α := ℚ)
      [⟨0, 100, 0, false, 0, 0⟩, ⟨0, 200, 0, true, 1, 1⟩] 0 = 100
    ∧ (100 : ℚ) ≠ 200 :=
  ⟨by decide, by norm_num⟩

/-- C6 (amended): for a schedule whose times strictly increase except for one
duplicated time `T` shared by consecutive breakpoints `c1` (earlier) and `c2`
(later): at `t = T` the query functions return `c2`'s value when a breakpoint
precedes the duplicate, but return `c1`'s (the earlier) value when the
duplicated time is the first breakpoint's time; for `T < t` up to the next
breakpoint the linear queries interpolate from `c2`'s value and the noise
query returns `c2`'s pair (at the last breakpoint they clamp to `c2`); for
`t < T` the queries are governed by the breakpoints up to `c1`: they clamp to
`c1` when nothing precedes it, and on the interval from the preceding
breakpoint `p` they interpolate from `p`'s value toward `c1`'s (noise
returning `p`'s pair). -/
theorem duplicate_time_tiebreak_amended {α : Type} [LinearOrderedField α]
    (pre post : List (ConfigFrequencyChange α))
    (c1 c2 : ConfigFrequencyChange α) (hdup : c2.time = c1.time)
    (hpreStrict : (pre ++ [c1]).Pairwise (fun a b => a.time < b.time))
    (hpostStrict : (c2 :: post).Pairwise (fun a b => a.time < b.time)) :
    (pre = [] →
      createFreqFunc (pre ++ c1 :: c2 :: post) c1.time = c1.frequency
      ∧ createBeatFreqFunc (pre ++ c1 :: c2 :: post) c1.time = c1.beatFrequency
      ∧ createVolumeFunc (pre ++ c1 :: c2 :: post) c1.time = c1.toneVolume
      ∧ createPinkNoiseFunc (pre ++ c1 :: c2 :: post) c1.time
          = (c1.pinkNoiseOn, c1.pinkNoiseVolume))
    ∧ (pre ≠ [] →
      createFreqFunc (pre ++ c1 :: c2 :: post) c1.time = c2.frequency
      ∧ createBeatFreqFunc (pre ++ c1 :: c2 :: post) c1.time = c2.beatFrequency
      ∧ createVolumeFunc (pre ++ c1 :: c2 :: post) c1.time = c2.toneVolume
      ∧ createPinkNoiseFunc (pre ++ c1 :: c2 :: post) c1.time
          = (c2.pinkNoiseOn, c2.pinkNoiseVolume))
    ∧ (∀ s, c1.time < s →
        (post = [] →
          createFreqFunc (pre ++ c1 :: c2 :: post) s = c2.frequency
          ∧ createBeatFreqFunc (pre ++ c1 :: c2 :: post) s = c2.beatFrequency
          ∧ createVolumeFunc (pre ++ c1 :: c2 :: post) s = c2.toneVolume
          ∧ createPinkNoiseFunc (pre ++ c1 :: c2 :: post) s
              = (c2.pinkNoiseOn, c2.pinkNoiseVolume))
        ∧ (∀ p0 post2, post = p0 :: post2 → s < p0.time →
          createFreqFunc (pre ++ c1 :: c2 :: post) s
              = linearInterp (fun c => c.frequency) c2 p0 s
          ∧ createBeatFreqFunc (pre ++ c1 :: c2 :: post) s
              = linearInterp (fun c => c.beatFrequency) c2 p0 s
          ∧ createVolumeFunc (pre ++ c1 :: c2 :: post) s
              = linearInterp (fun c => c.toneVolume) c2 p0 s
          ∧ createPinkNoiseFunc (pre ++ c1 :: c2 :: post) s
              = (c2.pinkNoiseOn, c2.pinkNoiseVolume)))
    ∧ (∀ s, s < c1.time →
        (pre = [] →
          createFreqFunc (pre ++ c1 :: c2 :: post) s = c1.frequency
          ∧ createBeatFreqFunc (pre ++ c1 :: c2 :: post) s = c1.beatFrequency
          ∧ createVolumeFunc (pre ++ c1 :: c2 :: post) s = c1.toneVolume
          ∧ createPinkNoiseFunc (pre ++ c1 :: c2 :: post) s
              = (c1.pinkNoiseOn, c1.pinkNoiseVolume))
        ∧ (∀ p pre2, pre = pre2 ++ [p] → p.time ≤ s →
          createFreqFunc (pre ++ c1 :: c2 :: post) s
              = linearInterp (fun c => c.frequency) p c1 s
          ∧ createBeatFreqFunc (pre ++ c1 :: c2 :: post) s
              = linearInterp (fun c => c.beatFrequency) p c1 s
          ∧ createVolumeFunc (pre ++ c1 :: c2 :: post) s
              = linearInterp (fun c => c.toneVolume) p c1 s
          ∧ createPinkNoiseFunc (pre ++ c1 :: c2 :: post) s
              = (p.pinkNoiseOn, p.pinkNoiseVolume))) := by
  have hpreCross : ∀ x ∈ pre, x.time < c1.time := by
    intro x hx
    exact (List.pairwise_append.mp hpreStrict).2.2 x hx c1 (by simp)
  have hpostCross : ∀ b ∈ post, c2.time < b.time :=
    (List.pairwise_cons.mp hpostStrict).1
  have hheadle : (headOr c1 pre).time ≤ c1.time := by
    cases pre with
    | nil => exact le_refl c1.time
    | cons q qs => exact le_of_lt (hpreCross q (List.mem_cons_self q qs))
  have hlastge : c1.time ≤ (lastOr c2 post).time := by
    rcases List.mem_cons.mp (lastOr_mem_cons post c2) with he | hm
    · rw [he, hdup]
    · rw [← hdup]
      exact le_of_lt (hpostCross _ hm)
  refine ⟨?_, ?_, ?_, ?_⟩
  · intro hpe
    subst hpe
    have hne : ([] : List (ConfigFrequencyChange α)) ++ c1 :: c2 :: post ≠ [] := by simp
    exact ⟨scheduleQuery_first (fun c => c.frequency)
        (linearInterp (fun c => c.frequency)) 0 _ c1.time hne (le_refl c1.time),
      scheduleQuery_first (fun c => c.beatFrequency)
        (linearInterp (fun c => c.beatFrequency)) 0 _ c1.time hne (le_refl c1.time),
      scheduleQuery_first (fun c => c.toneVolume)
        (linearInterp (fun c => c.toneVolume)) 1 _ c1.time hne (le_refl c1.time),
      scheduleQuery_first noisePair (fun a _ _ => noisePair a)
        ((false : Bool), (0 : α)) _ c1.time hne (le_refl c1.time)⟩
  · intro hpe
    cases post with
    | nil =>
      exact ⟨scheduleQuery_dup_at_end (fun c => c.frequency)
          (linearInterp (fun c => c.frequency)) 0 pre c1 c2 hdup hpreCross hpe,
        scheduleQuery_dup_at_end (fun c => c.beatFrequency)
          (linearInterp (fun c => c.beatFrequency)) 0 pre c1 c2 hdup hpreCross hpe,
        scheduleQuery_dup_at_end (fun c => c.toneVolume)
          (linearInterp (fun c => c.toneVolume)) 1 pre c1 c2 hdup hpreCross hpe,
        scheduleQuery_dup_at_end noisePair (fun a _ _ => noisePair a)
          ((false : Bool), (0 : α)) pre c1 c2 hdup hpreCross hpe⟩
    | cons p0 post2 =>
      have hp0 : c2.time < p0.time := hpostCross p0 (List.mem_cons_self p0 post2)
      have hpost2 : ∀ b ∈ post2, p0.time < b.time :=
        (List.pairwise_cons.mp (List.pairwise_cons.mp hpostStrict).2).1
      refine ⟨?_, ?_, ?_, ?_⟩
      · exact (scheduleQuery_dup_at_mid (fun c => c.frequency)
          (linearInterp (fun c => c.frequency)) 0 pre post2 c1 c2 p0 hdup
          hpreCross hpe hp0 hpost2).trans
          (linearInterp_at_left (fun c => c.frequency) c2 p0 c1.time hdup.symm)
      · exact (scheduleQuery_dup_at_mid (fun c => c.beatFrequency)
          (linearInterp (fun c => c.beatFrequency)) 0 pre post2 c1 c2 p0 hdup
          hpreCross hpe hp0 hpost2).trans
          (linearInterp_at_left (fun c => c.beatFrequency) c2 p0 c1.time hdup.symm)
      · exact (scheduleQuery_dup_at_mid (fun c => c.toneVolume)
          (linearInterp (fun c => c.toneVolume)) 1 pre post2 c1 c2 p0 hdup
          hpreCross hpe hp0 hpost2).trans
          (linearInterp_at_left (fun c => c.toneVolume) c2 p0 c1.time hdup.symm)
      · exact scheduleQuery_dup_at_mid noisePair (fun a _ _ => noisePair a)
          ((false : Bool), (0 : α)) pre post2 c1 c2 p0 hdup hpreCross hpe hp0 hpost2
  · intro s hs
    constructor
    · intro hpo
      subst hpo
      exact ⟨scheduleQuery_after_dup_end (fun c => c.frequency)
          (linearInterp (fun c => c.frequency)) 0 pre c1 c2 s hdup hheadle hs,
        scheduleQuery_after_dup_end (fun c => c.beatFrequency)
          (linearInterp (fun c => c.beatFrequency)) 0 pre c1 c2 s hdup hheadle hs,
        scheduleQuery_after_dup_end (fun c => c.toneVolume)
          (linearInterp (fun c => c.toneVolume)) 1 pre c1 c2 s hdup hheadle hs,
        scheduleQuery_after_dup_end noisePair (fun a _ _ => noisePair a)
          ((false : Bool), (0 : α)) pre c1 c2 s hdup hheadle hs⟩
    · intro p0 post2 hpo hsp0
      subst hpo
      have hpost2 : ∀ b ∈ post2, p0.time < b.time :=
        (List.pairwise_cons.mp (List.pairwise_cons.mp hpostStrict).2).1
      exact ⟨scheduleQuery_after_dup_mid (fun c => c.frequency)
          (linearInterp (fun c => c.frequency)) 0 pre post2 c1 c2 p0 s hdup
          hpreCross hheadle hs hsp0 hpost2,
        scheduleQuery_after_dup_mid (fun c => c.beatFrequency)
          (linearInterp (fun c => c.beatFrequency)) 0 pre post2 c1 c2 p0 s hdup
          hpreCross hheadle hs hsp0 hpost2,
        scheduleQuery_after_dup_mid (fun c => c.toneVolume)
          (linearInterp (fun c => c.toneVolume)) 1 pre post2 c1 c2 p0 s hdup
          hpreCross hheadle hs hsp0 hpost2,
        scheduleQuery_after_dup_mid noisePair (fun a _ _ => noisePair a)
          ((false : Bool), (0 : α)) pre post2 c1 c2 p0 s hdup
          hpreCross hheadle hs hsp0 hpost2⟩
  · intro s hs
    constructor
    · intro hpe
      subst hpe
      have hne : ([] : List (ConfigFrequencyChange α)) ++ c1 :: c2 :: post ≠ [] := by simp
      exact ⟨scheduleQuery_first (fun c => c.frequency)
          (linearInterp (fun c => c.frequency)) 0 _ s hne (le_of_lt hs),
        scheduleQuery_first (fun c => c.beatFrequency)
          (linearInterp (fun c => c.beatFrequency)) 0 _ s hne (le_of_lt hs),
        scheduleQuery_first (fun c => c.toneVolume)
          (linearInterp (fun c => c.toneVolume)) 1 _ s hne (le_of_lt hs),
        scheduleQuery_first noisePair (fun a _ _ => noisePair a)
          ((false : Bool), (0 : α)) _ s hne (le_of_lt hs)⟩
    · intro p pre2 hpe hps
      subst hpe
      have hpre2Cross : ∀ x ∈ pre2, x.time < p.time := by
        intro x hx
        have h2 : (pre2 ++ (p :: [c1])).Pairwise (fun a b => a.time < b.time) := by
          rw [List.append_assoc] at hpreStrict
          exact hpreStrict
        exact (List.pairwise_append.mp h2).2.2 x hx p (by simp)
      exact ⟨scheduleQuery_before_dup (fun c => c.frequency)
          (linearInterp (fun c => c.frequency)) 0 pre2 post p c1 c2 s
          hpre2Cross hps hs hlastge
          (linearInterp_at_left (fun c => c.frequency) p c1 p.time rfl),
        scheduleQuery_before_dup (fun c => c.beatFrequency)
          (linearInterp (fun c => c.beatFrequency)) 0 pre2 post p c1 c2 s
          hpre2Cross hps hs hlastge
          (linearInterp_at_left (fun c => c.beatFrequency) p c1 p.time rfl),
        scheduleQuery_before_dup (fun c => c.toneVolume)
          (linearInterp (fun c => c.toneVolume)) 1 pre2 post p c1 c2 s
          hpre2Cross hps hs hlastge
          (linearInterp_at_left (fun c => c.toneVolume) p c1 p.time rfl),
        scheduleQuery_before_dup noisePair (fun a _ _ => noisePair a)
          ((false : Bool), (0 : α)) pre2 post p c1 c2 s
          hpre2Cross hps hs hlastge rfl⟩

/-- Witness for C6 (amended): on `[(0,100), (0,200), (10,300)]` (duplicate at
time 0) the query at `t = 5` interpolates from the later duplicate:
`frequency(5) = 250`. -/
theorem duplicate_time_tiebreak_amended_witness :
    createFreqFunc (α := ℚ)
      [⟨0, 100, 1, false, 0, 2⟩, ⟨0, 200, 3, true, 1, 4⟩, ⟨10, 300, 5, false, 0, 6⟩]
      5 = 250 := by
  have h := duplicate_time_tiebreak_amended (α := ℚ) [] [⟨10, 300, 5, false, 0, 6⟩]
    ⟨0, 100, 1, false, 0, 2⟩ ⟨0, 200, 3, true, 1, 4⟩ rfl (by decide) (by decide)
  have h2 := (((h.2.2.1 5 (by norm_num)).2) ⟨10, 300, 5, false, 0, 6⟩ [] rfl
    (by norm_num)).1
  rw [List.nil_append] at h2
  rw [h2]
  norm_num [linearInterp]

/-- C10: a schedule loaded from the Sbagen batch converter has `PinkNoiseOn`
false at every breakpoint (the converter's record type carries no
`pink_noise_on` field), so the noise query reports off at every time and the
noise gate zeroes every frame of the session. -/
theorem converted_config_noise_silenced {α : Type} [LinearOrderedField α]
    (l : List (FrequencyChange α)) :
    (∀ t : α, (createPinkNoiseFunc (l.map loadConverted) t).1 = false)
    ∧ (∀ (rnd : ℕ → α) (pn : PinkNoise α) (sr : α) (pos : ℕ)
        (buf : List (α × α)),
        (pinkNoiseControlRun rnd (createPinkNoiseFunc (l.map loadConverted))
            sr pn pos buf).2
          = List.replicate buf.length ((0 : α), (0 : α))) := by
  have hall : ∀ c ∈ l.map loadConverted, c.pinkNoiseOn = false := by
    intro c hc
    obtain ⟨fc, _, hfc⟩ := List.mem_map.mp hc
    rw [← hfc]
    rfl
  have hoff : ∀ t : α, (createPinkNoiseFunc (l.map loadConverted) t).1 = false :=
    fun t => createPinkNoiseFunc_flag_off (l.map loadConverted) hall t
  refine ⟨hoff, fun rnd pn sr pos buf => ?_⟩
  rw [pinkNoiseControlRun_snd,
    gateRun_allOff (createPinkNoiseFunc (l.map loadConverted)) hoff sr pos _,
    pinkNoiseStreamRun_length]
